import Mathlib

/-!
Verification of the algorithm collection in `src/demo/python_algorithms.py`.

The four routines of the source file — `merge_sort`/`merge`, `binary_search`,
`dijkstra_shortest_path` and `fibonacci_dynamic` — are embedded below as Lean
functions.  Python dictionaries become association lists (`dlookup`/`dinsert`,
first-match lookup, in-place replace or append on write, which is exactly the
observable behaviour of an insertion-ordered dict with unique keys), Python's
`float('inf')` together with the non-negative edge weights becomes `ℕ∞`, and
the `while` loops become recursions on an explicit decreasing measure.
-/

namespace Kaizen

/-! ### Python dictionaries as association lists -/

/-- Dict read `d[k]` as a partial lookup: the value stored at the first
entry whose key is `k`, if any.  Models `k in d` (via `isSome`) and
`d[k]`. -/
def dlookup {κ β : Type} [DecidableEq κ] (d : List (κ × β)) (k : κ) : Option β :=
  match d with
  | [] => none
  | p :: rest => if p.1 = k then some p.2 else dlookup rest k

/-- Dict write `d[k] = x`: replace the value of an existing key in place,
otherwise append the new binding at the end (Python dicts preserve
insertion order). -/
def dinsert {κ β : Type} [DecidableEq κ] (d : List (κ × β)) (k : κ) (x : β) : List (κ × β) :=
  match d with
  | [] => [(k, x)]
  | p :: rest => if p.1 = k then (k, x) :: rest else p :: dinsert rest k x

/-! ### `merge_sort` and `merge` (source lines 3–29)

The source compares elements with the `<=` of whatever element type it is
given, so the embedding is parametric in a boolean comparison `le`. -/

/-- Source `merge(left, right)`: repeatedly take the smaller head (the left
one on ties), then append whatever remains of the other side — the
recursive rendering of the index-based loop of source lines 14–29. -/
def merge {α : Type} (le : α → α → Bool) : List α → List α → List α
  | [], right => right
  | left, [] => left
  | a :: left, b :: right =>
    if le a b then a :: merge le left (b :: right)
    else b :: merge le (a :: left) right
termination_by l r => l.length + r.length

/-- Source `merge_sort(arr)` (lines 3–12): split at `mid = len(arr) // 2`,
sort the halves, merge. -/
def merge_sort {α : Type} (le : α → α → Bool) (arr : List α) : List α :=
  if arr.length ≤ 1 then arr
  else
    merge le (merge_sort le (arr.take (arr.length / 2)))
      (merge_sort le (arr.drop (arr.length / 2)))
termination_by arr.length
decreasing_by
  · simp only [List.length_take]
    omega
  · simp only [List.length_drop]
    omega

/-- Sortedness with respect to a boolean comparison. -/
def SortedBy {α : Type} (le : α → α → Bool) (l : List α) : Prop :=
  l.Pairwise (fun a b => le a b = true)

/-- Elements carrying a sort key and a distinguishable payload, compared by
key only — the scenario in which stability of the sort is observable. -/
def keyLe (a b : ℕ × ℕ) : Bool := decide (a.1 ≤ b.1)

/-- The `<=` of a linearly ordered element type, as the boolean comparison
the Python code applies. -/
def leb {α : Type} [LinearOrder α] (a b : α) : Bool := decide (a ≤ b)

/-! ### `binary_search` (source lines 31–52)

The `while left <= right` loop becomes a recursion on the two interval
bounds, which are Python ints, i.e. `ℤ` (`right` starts at `len(arr) - 1`,
which is `-1` on the empty list).  Python's `//` on non-negative operands is
`Int.ediv`, written `/` below.  `arr[mid]` is `arr.getD mid.toNat default`;
inside the loop `0 ≤ left ≤ mid ≤ right ≤ len(arr) - 1` always holds, so the
default is never read. -/

def binary_search_loop {α : Type} [LinearOrder α] [Inhabited α] (arr : List α) (target : α)
    (left right : ℤ) : ℤ :=
  if left ≤ right then
    if arr.getD ((left + right) / 2).toNat default = target then (left + right) / 2
    else if arr.getD ((left + right) / 2).toNat default < target then
      if (left + right) / 2 < (arr.length : ℤ) - 1 then
        binary_search_loop arr target ((left + right) / 2 + 1) right
      else -1
    else
      if 0 < (left + right) / 2 then
        binary_search_loop arr target left ((left + right) / 2 - 1)
      else -1
  else -1
termination_by (right + 1 - left).toNat
decreasing_by
  · omega
  · omega

def binary_search {α : Type} [LinearOrder α] [Inhabited α] (arr : List α) (target : α) : ℤ :=
  binary_search_loop arr target 0 ((arr.length : ℤ) - 1)

/-- Modelled from the spec: "the simpler two-branch (less/greater) form"
of the binary-search loop, which always narrows to `left = mid + 1` or
`right = mid - 1` with no boundary early exits. -/
def binary_search_simple_loop {α : Type} [LinearOrder α] [Inhabited α] (arr : List α)
    (target : α) (left right : ℤ) : ℤ :=
  if left ≤ right then
    if arr.getD ((left + right) / 2).toNat default = target then (left + right) / 2
    else if arr.getD ((left + right) / 2).toNat default < target then
      binary_search_simple_loop arr target ((left + right) / 2 + 1) right
    else
      binary_search_simple_loop arr target left ((left + right) / 2 - 1)
  else -1
termination_by (right + 1 - left).toNat
decreasing_by
  · omega
  · omega

/-- Modelled from the spec: the early-exit-free binary search against which
claim C5 compares the source's `binary_search`. -/
def binary_search_simple {α : Type} [LinearOrder α] [Inhabited α] (arr : List α)
    (target : α) : ℤ :=
  binary_search_simple_loop arr target 0 ((arr.length : ℤ) - 1)

/-! ### `dijkstra_shortest_path` (source lines 54–74)

Node identifiers are `ℕ`; a graph is the adjacency dict
`{node: {neighbor: weight}}`, an association list of association lists with
non-negative (`ℕ`) weights.  Distances live in `ℕ∞`: `float('inf')` is `⊤`.
The unvisited set is the list of keys in dict order; `min(unvisited,
key=...)` is the first element attaining the minimal distance, which
concretises Python's implementation-defined set iteration order. -/

abbrev Node := ℕ

abbrev Graph := List (Node × List (Node × ℕ))

/-- The key list `graph.keys()`, also `for node in graph`. -/
def keys (g : Graph) : List Node := g.map Prod.fst

/-- Adjacency read `graph[v].items()` (the empty list when `v` is not a
key; the algorithm only ever reads adjacency of keys). -/
def adj (g : Graph) (v : Node) : List (Node × ℕ) := (dlookup g v).getD []

/-- Distance read `distances[v]` — during the algorithm every node that is
looked up is a key of the distance dict, so the `⊤` default is never
observable. -/
def dget (d : List (Node × ℕ∞)) (v : Node) : ℕ∞ := (dlookup d v).getD ⊤

/-- Selection `min(unvisited, key=lambda node: distances[node])`: the first
element of the list attaining the minimal distance (the builtin keeps the
earlier of two equal candidates). -/
def selectMin (dist : List (Node × ℕ∞)) : Node → List Node → Node
  | c, [] => c
  | c, x :: xs => if dget dist x < dget dist c then selectMin dist x xs else selectMin dist c xs

/-- One iteration of the inner `for neighbor, weight in graph[current].items()`
loop body: `if neighbor in unvisited and distances[current] + weight <
distances[neighbor]: distances[neighbor] = new_distance`. -/
def relaxStep (current : Node) (unvisited : List Node) (d : List (Node × ℕ∞))
    (e : Node × ℕ) : List (Node × ℕ∞) :=
  if e.1 ∈ unvisited then
    if dget d current + (e.2 : ℕ∞) < dget d e.1 then dinsert d e.1 (dget d current + e.2)
    else d
  else d

/-- The inner `for neighbor, weight in graph[current].items()` loop: relax
every edge out of `current` whose target is still unvisited. -/
def relaxNeighbors (g : Graph) (current : Node) (unvisited : List Node)
    (dist : List (Node × ℕ∞)) : List (Node × ℕ∞) :=
  (adj g current).foldl (relaxStep current unvisited) dist

/-- The `while unvisited` loop: pick the unvisited node of minimal distance,
stop early if that distance is infinite, otherwise relax its neighbors and
mark it visited. -/
def dijkstra_loop (g : Graph) (dist : List (Node × ℕ∞)) (unvisited : List Node) :
    List (Node × ℕ∞) :=
  match unvisited with
  | [] => dist
  | u :: us =>
    if dget dist (selectMin dist u us) = ⊤ then dist
    else
      dijkstra_loop g (relaxNeighbors g (selectMin dist u us) (u :: us) dist)
        ((u :: us).erase (selectMin dist u us))
termination_by unvisited.length
decreasing_by
  have hmem : ∀ (c : Node) (xs : List Node), selectMin dist c xs ∈ c :: xs := by
    intro c xs
    induction xs generalizing c with
    | nil => simp [selectMin]
    | cons x xs ih =>
      rw [selectMin]
      by_cases hx : dget dist x < dget dist c
      · simp only [hx, if_true]
        exact List.mem_cons_of_mem c (ih x)
      · simp only [hx, if_false]
        rcases List.mem_cons.mp (ih c) with h | h
        · rw [h]
          exact List.mem_cons_self c (x :: xs)
        · exact List.mem_cons_of_mem c (List.mem_cons_of_mem x h)
  have := List.length_erase_of_mem (hmem u us)
  simp only [this, List.length_cons]
  omega

/-- Source `dijkstra_shortest_path(graph, start)`: distances start at `inf`
for every key of the graph, `distances[start] = 0` (which appends `start`
as a new key when it is absent), and the unvisited set is all keys. -/
def dijkstra_shortest_path (g : Graph) (start : Node) : List (Node × ℕ∞) :=
  dijkstra_loop g (dinsert ((keys g).map (fun node => (node, (⊤ : ℕ∞)))) start 0) (keys g)

/-! Spec-side notions for the shortest-path contract. -/

/-- The total edge weight of a walk, recorded as its list of steps. -/
def pathCost (p : List (Node × ℕ)) : ℕ := (p.map Prod.snd).sum

/-- The predicate `IsWalk g s p t`: `p` is a list of
`(next node, edge weight)` steps tracing edges of `g` from `s` to `t`. -/
def IsWalk (g : Graph) : Node → List (Node × ℕ) → Node → Prop
  | s, [], t => s = t
  | s, e :: p, t => e ∈ adj g s ∧ IsWalk g e.1 p t

/-- The minimum total edge weight over all walks from `s` to `t` in `g`
(`⊤` when `t` is unreachable from `s`). -/
noncomputable def minDist (g : Graph) (s t : Node) : ℕ∞ :=
  sInf {c : ℕ∞ | ∃ p : List (Node × ℕ), IsWalk g s p t ∧ c = (pathCost p : ℕ∞)}

/-! ### `fibonacci_dynamic` (source lines 76–91)

Python ints are `ℤ`.  The closure-captured `memo` dict becomes an explicit
argument threaded through `fib`, exactly as §9 of the spec describes the
rewrite; `fib` returns the value together with the updated memo.  Note the
source consults the memo first, returns `num` itself whenever `num <= 1`
(without caching it), and caches only computed values. -/

def fib (memo : List (ℤ × ℤ)) (num : ℤ) : ℤ × List (ℤ × ℤ) :=
  match dlookup memo num with
  | some v => (v, memo)
  | none =>
    if num ≤ 1 then (num, memo)
    else
      let r1 := fib memo (num - 1)
      let r2 := fib r1.2 (num - 2)
      (r1.1 + r2.1, dinsert r2.2 num (r1.1 + r2.1))
termination_by num.toNat
decreasing_by
  · omega
  · omega

def fibonacci_dynamic (n : ℤ) : ℤ := (fib [] n).1

/-- The naive recursive reference: `fib(0)=0, fib(1)=1,
fib(k)=fib(k-1)+fib(k-2)`. -/
def fibRef : ℕ → ℤ
  | 0 => 0
  | 1 => 1
  | n + 2 => fibRef (n + 1) + fibRef n

/-- The value `fib` computes on an arbitrary integer: the argument itself up
to `1`, the Fibonacci number beyond. -/
def fibVal (n : ℤ) : ℤ := if n ≤ 1 then n else fibRef n.toNat

/-!
## Lemmas and claim theorems
-/

/-! ### Dictionary lemmas -/

theorem dlookup_dinsert_self {κ β : Type} [DecidableEq κ] (d : List (κ × β)) (k : κ) (x : β) :
    dlookup (dinsert d k x) k = some x := by
  induction d with
  | nil => simp [dlookup, dinsert]
  | cons p rest ih =>
    by_cases h : p.1 = k
    · simp [dlookup, dinsert, h]
    · simp [dlookup, dinsert, h, ih]

theorem dlookup_dinsert_ne {κ β : Type} [DecidableEq κ] (d : List (κ × β)) (k k' : κ) (x : β)
    (h : k' ≠ k) : dlookup (dinsert d k x) k' = dlookup d k' := by
  have hkk : ¬ k = k' := fun h' => h h'.symm
  induction d with
  | nil => simp [dlookup, dinsert, hkk]
  | cons p rest ih =>
    by_cases hp : p.1 = k
    · have hp' : ¬ p.1 = k' := fun hq => hkk (hp.symm.trans hq)
      simp [dlookup, dinsert, hp, hkk, hp']
    · simp [dlookup, dinsert, hp, ih]

theorem dlookup_mem {κ β : Type} [DecidableEq κ] {d : List (κ × β)} {k : κ} {v : β}
    (h : dlookup d k = some v) : (k, v) ∈ d := by
  induction d with
  | nil => simp [dlookup] at h
  | cons p rest ih =>
    obtain ⟨pk, pv⟩ := p
    by_cases hp : pk = k
    · simp only [dlookup, hp, if_true, Option.some.injEq] at h
      subst hp
      subst h
      exact List.mem_cons_self _ _
    · simp only [dlookup, hp, if_false] at h
      exact List.mem_cons_of_mem _ (ih h)

theorem dinsert_of_not_mem {κ β : Type} [DecidableEq κ] {d : List (κ × β)} {k : κ} (x : β)
    (h : k ∉ d.map Prod.fst) : dinsert d k x = d ++ [(k, x)] := by
  induction d with
  | nil => simp [dinsert]
  | cons p rest ih =>
    simp only [List.map_cons, List.mem_cons] at h
    push_neg at h
    have hp : ¬ p.1 = k := fun hq => h.1 hq.symm
    simp [dinsert, hp, ih h.2]

/-! ### Merge sort lemmas -/

theorem merge_cons_cons_pos {α : Type} {le : α → α → Bool} {a b : α} (l r : List α)
    (hab : le a b = true) : merge le (a :: l) (b :: r) = a :: merge le l (b :: r) := by
  rw [merge.eq_def]
  simp [hab]

theorem merge_cons_cons_neg {α : Type} {le : α → α → Bool} {a b : α} (l r : List α)
    (hab : ¬ le a b = true) : merge le (a :: l) (b :: r) = b :: merge le (a :: l) r := by
  rw [merge.eq_def]
  simp [hab]

theorem merge_perm {α : Type} (le : α → α → Bool) (l r : List α) :
    List.Perm (merge le l r) (l ++ r) := by
  induction l, r using merge.induct le with
  | case1 r => simp [merge]
  | case2 l => simp [merge]
  | case3 a l b r hab ih =>
    rw [merge_cons_cons_pos l r hab]
    exact ih.cons a
  | case4 a l b r hab ih =>
    rw [merge_cons_cons_neg l r hab]
    exact ((ih.cons b).trans (List.Perm.symm (List.perm_middle)))

theorem mem_merge {α : Type} (le : α → α → Bool) {x : α} {l r : List α} :
    x ∈ merge le l r ↔ x ∈ l ∨ x ∈ r := by
  rw [(merge_perm le l r).mem_iff, List.mem_append]

theorem sortedBy_merge {α : Type} (le : α → α → Bool)
    (htot : ∀ a b, le a b = true ∨ le b a = true)
    (htrans : ∀ a b c, le a b = true → le b c = true → le a c = true)
    (l r : List α) (hl : SortedBy le l) (hr : SortedBy le r) :
    SortedBy le (merge le l r) := by
  induction l, r using merge.induct le with
  | case1 r => simpa [merge] using hr
  | case2 l => simpa [merge] using hl
  | case3 a l b r hab ih =>
    rw [SortedBy, List.pairwise_cons] at hl
    rw [merge_cons_cons_pos l r hab, SortedBy, List.pairwise_cons]
    refine ⟨?_, ih hl.2 hr⟩
    intro x hx
    rcases (mem_merge le).mp hx with hxl | hxr
    · exact hl.1 x hxl
    · rcases List.mem_cons.mp hxr with rfl | hxr
      · exact hab
      · rw [SortedBy, List.pairwise_cons] at hr
        exact htrans a b x hab (hr.1 x hxr)
  | case4 a l b r hab ih =>
    rw [SortedBy, List.pairwise_cons] at hr
    have hba : le b a = true := (htot a b).resolve_left hab
    rw [merge_cons_cons_neg l r hab, SortedBy, List.pairwise_cons]
    refine ⟨?_, ih hl hr.2⟩
    intro x hx
    rcases (mem_merge le).mp hx with hxl | hxr
    · rcases List.mem_cons.mp hxl with rfl | hxl
      · exact hba
      · rw [SortedBy, List.pairwise_cons] at hl
        exact htrans b a x hba (hl.1 x hxl)
    · exact hr.1 x hxr

theorem merge_sort_perm {α : Type} (le : α → α → Bool) (l : List α) :
    List.Perm (merge_sort le l) l := by
  induction l using merge_sort.induct le with
  | case1 l h =>
    rw [merge_sort, if_pos h]
  | case2 l h ih1 ih2 =>
    rw [merge_sort, if_neg h]
    refine (merge_perm le _ _).trans ?_
    refine (ih1.append ih2).trans ?_
    rw [List.take_append_drop]

theorem sortedBy_merge_sort {α : Type} (le : α → α → Bool)
    (htot : ∀ a b, le a b = true ∨ le b a = true)
    (htrans : ∀ a b c, le a b = true → le b c = true → le a c = true)
    (l : List α) : SortedBy le (merge_sort le l) := by
  induction l using merge_sort.induct le with
  | case1 l h =>
    rw [merge_sort, if_pos h]
    match l, h with
    | [], _ => exact List.Pairwise.nil
    | [a], _ => simp [SortedBy]
  | case2 l h ih1 ih2 =>
    rw [merge_sort, if_neg h]
    exact sortedBy_merge le htot htrans _ _ ih1 ih2

theorem merge_eq_append {α : Type} (le : α → α → Bool) (l r : List α)
    (h : ∀ x ∈ l, ∀ y ∈ r, le x y = true) : merge le l r = l ++ r := by
  induction l, r using merge.induct le with
  | case1 r => simp [merge]
  | case2 l => simp [merge]
  | case3 a l b r hab ih =>
    rw [merge_cons_cons_pos l r hab, List.cons_append]
    exact congrArg (a :: ·) (ih fun x hx y hy => h x (List.mem_cons_of_mem a hx) y hy)
  | case4 a l b r hab ih =>
    exact absurd (h a (List.mem_cons_self a l) b (List.mem_cons_self b r)) hab

theorem merge_sort_of_sortedBy {α : Type} (le : α → α → Bool) (l : List α)
    (hl : SortedBy le l) : merge_sort le l = l := by
  induction l using merge_sort.induct le with
  | case1 l h => rw [merge_sort, if_pos h]
  | case2 l h ih1 ih2 =>
    rw [merge_sort, if_neg h]
    have hsplit : List.take (l.length / 2) l ++ List.drop (l.length / 2) l = l :=
      List.take_append_drop _ l
    rw [SortedBy, ← hsplit, List.pairwise_append] at hl
    rw [ih1 hl.1, ih2 hl.2.1, merge_eq_append le _ _ hl.2.2, hsplit]

theorem leb_total {α : Type} [LinearOrder α] :
    ∀ a b : α, leb a b = true ∨ leb b a = true := by
  intro a b
  simp only [leb, decide_eq_true_eq]
  exact le_total a b

theorem leb_trans {α : Type} [LinearOrder α] :
    ∀ a b c : α, leb a b = true → leb b c = true → leb a c = true := by
  intro a b c
  simp only [leb, decide_eq_true_eq]
  exact le_trans

theorem sortedBy_leb_iff {α : Type} [LinearOrder α] (l : List α) :
    SortedBy leb l ↔ l.Sorted (· ≤ ·) := by
  constructor
  · intro h
    exact h.imp (by simp [leb])
  · intro h
    exact h.imp (by simp [leb])

theorem keyLe_total : ∀ a b : ℕ × ℕ, keyLe a b = true ∨ keyLe b a = true := by
  intro a b
  simp only [keyLe, decide_eq_true_eq]
  exact le_total a.1 b.1

theorem keyLe_trans :
    ∀ a b c : ℕ × ℕ, keyLe a b = true → keyLe b c = true → keyLe a c = true := by
  intro a b c
  simp only [keyLe, decide_eq_true_eq]
  exact le_trans

/-- Stability of `merge` for key-compared pairs: filtering the merge of a
key-sorted left run with any right run by one key value keeps all the left
elements of that key before all the right ones. -/
theorem filter_merge_keyLe (k : ℕ) (l r : List (ℕ × ℕ)) (hl : SortedBy keyLe l) :
    (merge keyLe l r).filter (fun x => decide (x.1 = k)) =
      l.filter (fun x => decide (x.1 = k)) ++ r.filter (fun x => decide (x.1 = k)) := by
  induction l, r using merge.induct keyLe with
  | case1 r => simp [merge]
  | case2 l => simp [merge]
  | case3 a l b r hab ih =>
    rw [SortedBy, List.pairwise_cons] at hl
    rw [merge_cons_cons_pos l r hab]
    simp only [List.filter_cons, List.cons_append, ih hl.2]
    by_cases hk : a.1 = k
    · simp [hk]
    · simp [hk]
  | case4 a l b r hab ih =>
    have hba : b.1 < a.1 := by
      simpa [keyLe] using hab
    rw [merge_cons_cons_neg l r hab]
    by_cases hk : b.1 = k
    · have hnil : (a :: l).filter (fun x => decide (x.1 = k)) = [] := by
        rw [List.filter_eq_nil_iff]
        intro x hx
        rcases List.mem_cons.mp hx with rfl | hx
        · simp only [decide_eq_true_eq]
          omega
        · rw [SortedBy, List.pairwise_cons] at hl
          have := hl.1 x hx
          simp only [keyLe, decide_eq_true_eq] at this
          simp only [decide_eq_true_eq]
          omega
      simp [List.filter_cons, hk, ih hl, hnil]
    · simp [List.filter_cons, hk, ih hl]

/-- Stability of `merge_sort` for key-compared pairs: the subsequence of
elements with any fixed key is preserved verbatim. -/
theorem filter_merge_sort_keyLe (k : ℕ) (l : List (ℕ × ℕ)) :
    (merge_sort keyLe l).filter (fun x => decide (x.1 = k)) =
      l.filter (fun x => decide (x.1 = k)) := by
  induction l using merge_sort.induct keyLe with
  | case1 l h => rw [merge_sort, if_pos h]
  | case2 l h ih1 ih2 =>
    rw [merge_sort, if_neg h,
      filter_merge_keyLe k _ _ (sortedBy_merge_sort keyLe keyLe_total keyLe_trans _),
      ih1, ih2, ← List.filter_append, List.take_append_drop]

/-- C3: for every finite sequence of totally-ordered elements,
`merge_sort(arr)` returns a permutation of the input (same elements, same
multiplicities) that is sorted in non-decreasing order. -/
theorem merge_sort_sorts {α : Type} [LinearOrder α] (arr : List α) :
    List.Perm (merge_sort leb arr) arr ∧ List.Sorted (· ≤ ·) (merge_sort leb arr) :=
  ⟨merge_sort_perm leb arr,
    (sortedBy_leb_iff _).mp (sortedBy_merge_sort leb leb_total leb_trans arr)⟩

/-- C7: `merge_sort` is stable: elements whose keys compare equal but whose
payloads are distinguishable appear in the output in the same relative order
as in the input (the merge step takes from the left run on ties), stated as
preservation of the subsequence of pairs carrying any fixed key. -/
theorem merge_sort_stable (arr : List (ℕ × ℕ)) (k : ℕ) :
    (merge_sort keyLe arr).filter (fun x => decide (x.1 = k)) =
      arr.filter (fun x => decide (x.1 = k)) :=
  filter_merge_sort_keyLe k arr

/-- C8: `merge_sort` is idempotent: it returns an already-sorted input (the
empty sequence included) unchanged, and re-sorting any sorted output is a
no-op. -/
theorem merge_sort_idempotent {α : Type} [LinearOrder α] (arr : List α) :
    (List.Sorted (· ≤ ·) arr → merge_sort leb arr = arr) ∧
      merge_sort leb (merge_sort leb arr) = merge_sort leb arr :=
  ⟨fun h => merge_sort_of_sortedBy leb arr ((sortedBy_leb_iff arr).mpr h),
    merge_sort_of_sortedBy leb _ (sortedBy_merge_sort leb leb_total leb_trans arr)⟩

/-- Witness for C8 at a concrete sorted input. -/
theorem merge_sort_idempotent_witness :
    List.Sorted (· ≤ ·) ([1, 2, 2, 5] : List ℤ) ∧
      merge_sort leb ([1, 2, 2, 5] : List ℤ) = [1, 2, 2, 5] ∧
        merge_sort leb (merge_sort leb ([3, 1, 2] : List ℤ)) =
          merge_sort leb ([3, 1, 2] : List ℤ) :=
  ⟨by decide, (merge_sort_idempotent ([1, 2, 2, 5] : List ℤ)).1 (by decide),
    (merge_sort_idempotent ([3, 1, 2] : List ℤ)).2⟩

/-! ### Binary search lemmas -/

theorem getD_eq_get {α : Type} [Inhabited α] (arr : List α) {i : ℕ} (h : i < arr.length) :
    arr.getD i default = arr.get ⟨i, h⟩ := by
  simp [List.getD_eq_getElem?_getD, List.getElem?_eq_getElem h]

theorem sorted_getD_le {α : Type} [LinearOrder α] [Inhabited α] {arr : List α}
    (hs : List.Sorted (· ≤ ·) arr) {i j : ℕ} (hij : i ≤ j) (hj : j < arr.length) :
    arr.getD i default ≤ arr.getD j default := by
  rcases eq_or_lt_of_le hij with rfl | hlt
  · exact le_refl _
  · rw [getD_eq_get arr (lt_trans hlt hj), getD_eq_get arr hj]
    exact List.pairwise_iff_get.mp hs ⟨i, lt_trans hlt hj⟩ ⟨j, hj⟩ (Fin.mk_lt_mk.mpr hlt)

theorem mem_iff_getD {α : Type} [Inhabited α] {arr : List α} {t : α} :
    t ∈ arr ↔ ∃ i : ℕ, i < arr.length ∧ arr.getD i default = t := by
  rw [List.mem_iff_get]
  constructor
  · rintro ⟨⟨i, hi⟩, hget⟩
    exact ⟨i, hi, by rw [getD_eq_get arr hi, hget]⟩
  · rintro ⟨i, hi, hget⟩
    exact ⟨⟨i, hi⟩, by rw [← getD_eq_get arr hi, hget]⟩

/-- Correctness of the `binary_search` loop: provided all occurrences of the
target lie inside the closed interval `[left, right]`, the loop either
returns an index holding the target or returns `-1` and the target is
nowhere in the array. -/
theorem binary_search_loop_correct {α : Type} [LinearOrder α] [Inhabited α]
    (arr : List α) (target : α) (hs : List.Sorted (· ≤ ·) arr) :
    ∀ left right : ℤ, 0 ≤ left → right ≤ (arr.length : ℤ) - 1 →
      (∀ i : ℕ, i < arr.length → arr.getD i default = target →
        left ≤ (i : ℤ) ∧ (i : ℤ) ≤ right) →
      (∃ j : ℕ, (j : ℤ) = binary_search_loop arr target left right ∧ j < arr.length ∧
          arr.getD j default = target) ∨
        (binary_search_loop arr target left right = -1 ∧
          ∀ i : ℕ, i < arr.length → arr.getD i default ≠ target) := by
  intro left right
  induction left, right using binary_search_loop.induct arr target with
  | case1 left right hlr heq =>
    intro h0 hlen hocc
    rw [binary_search_loop, if_pos hlr, if_pos heq]
    refine Or.inl ⟨((left + right) / 2).toNat, ?_, ?_, ?_⟩
    · omega
    · omega
    · exact heq
  | case2 left right hlr hne hlt hmid ih =>
    intro h0 hlen hocc
    rw [binary_search_loop, if_pos hlr, if_neg hne, if_pos hlt, if_pos hmid]
    refine ih (by omega) hlen ?_
    intro i hi hit
    refine ⟨?_, (hocc i hi hit).2⟩
    by_contra hcon
    have him : i ≤ ((left + right) / 2).toNat := by omega
    have hmlen : ((left + right) / 2).toNat < arr.length := by omega
    have := sorted_getD_le hs him hmlen
    rw [hit] at this
    exact absurd (lt_of_le_of_lt this hlt) (lt_irrefl target)
  | case3 left right hlr hne hlt hmid =>
    intro h0 hlen hocc
    rw [binary_search_loop, if_pos hlr, if_neg hne, if_pos hlt, if_neg hmid]
    refine Or.inr ⟨rfl, ?_⟩
    intro i hi hit
    have hmlen : ((left + right) / 2).toNat < arr.length := by omega
    have him : i ≤ ((left + right) / 2).toNat := by omega
    have := sorted_getD_le hs him hmlen
    rw [hit] at this
    exact absurd (lt_of_le_of_lt this hlt) (lt_irrefl target)
  | case4 left right hlr hne hnlt hmid ih =>
    intro h0 hlen hocc
    have hgt : target < arr.getD ((left + right) / 2).toNat default :=
      lt_of_le_of_ne (not_lt.mp hnlt) (fun h => hne h.symm)
    rw [binary_search_loop, if_pos hlr, if_neg hne, if_neg hnlt, if_pos hmid]
    refine ih h0 (by omega) ?_
    intro i hi hit
    refine ⟨(hocc i hi hit).1, ?_⟩
    by_contra hcon
    have hmi : ((left + right) / 2).toNat ≤ i := by omega
    have := sorted_getD_le hs hmi hi
    rw [hit] at this
    exact absurd (lt_of_lt_of_le hgt this) (lt_irrefl target)
  | case5 left right hlr hne hnlt hmid =>
    intro h0 hlen hocc
    have hgt : target < arr.getD ((left + right) / 2).toNat default :=
      lt_of_le_of_ne (not_lt.mp hnlt) (fun h => hne h.symm)
    rw [binary_search_loop, if_pos hlr, if_neg hne, if_neg hnlt, if_neg hmid]
    refine Or.inr ⟨rfl, ?_⟩
    intro i hi hit
    have hm0 : ((left + right) / 2).toNat = 0 := by omega
    have := sorted_getD_le hs (Nat.zero_le i) hi
    rw [hit, ← hm0] at this
    exact absurd (lt_of_lt_of_le hgt this) (lt_irrefl target)
  | case6 left right hlr =>
    intro h0 hlen hocc
    rw [binary_search_loop, if_neg hlr]
    refine Or.inr ⟨rfl, ?_⟩
    intro i hi hit
    have := hocc i hi hit
    omega

/-- C2: on a sorted sequence, `binary_search` returns an index holding the
target whenever the target occurs, and the sentinel `-1` (never an error)
when it does not; on `[1,3,5,7,9]` it returns `3` for target `7` and `-1`
for target `4`. -/
theorem binary_search_correct :
    (∀ {α : Type} [inst : LinearOrder α] [inst2 : Inhabited α] (arr : List α) (target : α),
        List.Sorted (· ≤ ·) arr →
          (target ∈ arr →
            ∃ j : ℕ, binary_search arr target = (j : ℤ) ∧ j < arr.length ∧
              arr.getD j default = target) ∧
            (target ∉ arr → binary_search arr target = -1)) ∧
      binary_search ([1, 3, 5, 7, 9] : List ℤ) 7 = 3 ∧
        binary_search ([1, 3, 5, 7, 9] : List ℤ) 4 = -1 := by
  refine ⟨?_, by simp [binary_search, binary_search_loop],
    by simp [binary_search, binary_search_loop]⟩
  intro α inst inst2 arr target hs
  have hmain := binary_search_loop_correct arr target hs 0 ((arr.length : ℤ) - 1)
    (by omega) (by omega) (fun i hi _ => by omega)
  constructor
  · intro hmem
    rcases hmain with ⟨j, hj, hjlen, hjt⟩ | ⟨hres, hnone⟩
    · exact ⟨j, hj.symm, hjlen, hjt⟩
    · rcases mem_iff_getD.mp hmem with ⟨i, hi, hit⟩
      exact absurd hit (hnone i hi)
  · intro hmem
    rcases hmain with ⟨j, hj, hjlen, hjt⟩ | ⟨hres, hnone⟩
    · exact absurd (mem_iff_getD.mpr ⟨j, hjlen, hjt⟩) hmem
    · exact hres

/-- Witness for C2 at a concrete sorted sequence. -/
theorem binary_search_correct_witness :
    List.Sorted (· ≤ ·) ([2, 4, 6] : List ℤ) ∧
      (6 ∈ ([2, 4, 6] : List ℤ) →
        ∃ j : ℕ, binary_search ([2, 4, 6] : List ℤ) 6 = (j : ℤ) ∧ j < 3 ∧
          ([2, 4, 6] : List ℤ).getD j default = 6) :=
  ⟨by decide, (binary_search_correct.1 ([2, 4, 6] : List ℤ) 6 (by decide)).1⟩

/-- The loop of `binary_search` agrees with the early-exit-free loop on any
in-range interval: the early exits fire exactly when the simple loop's next
iteration would fail its `left <= right` test. -/
theorem binary_search_loop_eq_simple {α : Type} [LinearOrder α] [Inhabited α]
    (arr : List α) (target : α) :
    ∀ left right : ℤ, 0 ≤ left → right ≤ (arr.length : ℤ) - 1 →
      binary_search_loop arr target left right =
        binary_search_simple_loop arr target left right := by
  intro left right
  induction left, right using binary_search_loop.induct arr target with
  | case1 left right hlr heq =>
    intro h0 hlen
    rw [binary_search_loop, if_pos hlr, if_pos heq,
      binary_search_simple_loop, if_pos hlr, if_pos heq]
  | case2 left right hlr hne hlt hmid ih =>
    intro h0 hlen
    rw [binary_search_loop, if_pos hlr, if_neg hne, if_pos hlt, if_pos hmid,
      binary_search_simple_loop, if_pos hlr, if_neg hne, if_pos hlt]
    exact ih (by omega) hlen
  | case3 left right hlr hne hlt hmid =>
    intro h0 hlen
    rw [binary_search_loop, if_pos hlr, if_neg hne, if_pos hlt, if_neg hmid,
      binary_search_simple_loop, if_pos hlr, if_neg hne, if_pos hlt,
      binary_search_simple_loop, if_neg (by omega)]
  | case4 left right hlr hne hnlt hmid ih =>
    intro h0 hlen
    rw [binary_search_loop, if_pos hlr, if_neg hne, if_neg hnlt, if_pos hmid,
      binary_search_simple_loop, if_pos hlr, if_neg hne, if_neg hnlt]
    exact ih h0 (by omega)
  | case5 left right hlr hne hnlt hmid =>
    intro h0 hlen
    rw [binary_search_loop, if_pos hlr, if_neg hne, if_neg hnlt, if_neg hmid,
      binary_search_simple_loop, if_pos hlr, if_neg hne, if_neg hnlt,
      binary_search_simple_loop, if_neg (by omega)]
  | case6 left right hlr =>
    intro h0 hlen
    rw [binary_search_loop, if_neg hlr, binary_search_simple_loop, if_neg hlr]

/-- C5: on every ascending-sorted sequence and every target, the source's
`binary_search` with its boundary early-exit branches returns exactly the
same result as the simple two-branch binary search that always narrows to
`left = mid + 1` or `right = mid - 1`; the early exits are redundant with
the loop's termination condition. -/
theorem binary_search_eq_simple {α : Type} [LinearOrder α] [Inhabited α]
    (arr : List α) (target : α) (_hs : List.Sorted (· ≤ ·) arr) :
    binary_search arr target = binary_search_simple arr target :=
  binary_search_loop_eq_simple arr target 0 ((arr.length : ℤ) - 1) (by omega) (by omega)

/-- Witness for C5 at a concrete sorted sequence. -/
theorem binary_search_eq_simple_witness :
    List.Sorted (· ≤ ·) ([1, 3, 5, 7, 9] : List ℤ) ∧
      binary_search ([1, 3, 5, 7, 9] : List ℤ) 4 =
        binary_search_simple ([1, 3, 5, 7, 9] : List ℤ) 4 :=
  ⟨by decide, binary_search_eq_simple ([1, 3, 5, 7, 9] : List ℤ) 4 (by decide)⟩

/-! ### Fibonacci lemmas -/

theorem mem_dinsert {κ β : Type} [DecidableEq κ] {d : List (κ × β)} {k : κ} {x : β} {p : κ × β}
    (h : p ∈ dinsert d k x) : p ∈ d ∨ p = (k, x) := by
  induction d with
  | nil => exact Or.inr (by simpa [dinsert] using h)
  | cons q rest ih =>
    by_cases hq : q.1 = k
    · simp only [dinsert, hq, if_true] at h
      rcases List.mem_cons.mp h with rfl | h
      · exact Or.inr rfl
      · exact Or.inl (List.mem_cons_of_mem q h)
    · simp only [dinsert, hq, if_false] at h
      rcases List.mem_cons.mp h with rfl | h
      · exact Or.inl (List.mem_cons_self p rest)
      · rcases ih h with h | h
        · exact Or.inl (List.mem_cons_of_mem q h)
        · exact Or.inr h

theorem fibVal_eq_fibRef (n : ℤ) (h : 0 ≤ n) : fibVal n = fibRef n.toNat := by
  unfold fibVal
  by_cases h1 : n ≤ 1
  · have : n = 0 ∨ n = 1 := by omega
    rcases this with rfl | rfl <;> simp [fibRef]
  · simp [h1]

theorem fibVal_rec (n : ℤ) (h : 2 ≤ n) : fibVal n = fibVal (n - 1) + fibVal (n - 2) := by
  rw [fibVal_eq_fibRef n (by omega), fibVal_eq_fibRef (n - 1) (by omega),
    fibVal_eq_fibRef (n - 2) (by omega)]
  obtain ⟨m, hm⟩ : ∃ m : ℕ, n.toNat = m + 2 := ⟨n.toNat - 2, by omega⟩
  have h1 : (n - 1).toNat = m + 1 := by omega
  have h2 : (n - 2).toNat = m := by omega
  rw [hm, h1, h2]
  rfl

/-- The memo-threading invariant: if every binding of the memo is the
correct value of `fibVal`, then `fib` returns `fibVal num` and every binding
of the returned memo is again correct. -/
theorem fib_correct (num : ℤ) :
    ∀ memo : List (ℤ × ℤ), (∀ p ∈ memo, p.2 = fibVal p.1) →
      (fib memo num).1 = fibVal num ∧ ∀ p ∈ (fib memo num).2, p.2 = fibVal p.1 := by
  suffices h : ∀ (n : ℕ) (num : ℤ), num.toNat = n →
      ∀ memo : List (ℤ × ℤ), (∀ p ∈ memo, p.2 = fibVal p.1) →
        (fib memo num).1 = fibVal num ∧ ∀ p ∈ (fib memo num).2, p.2 = fibVal p.1 by
    exact h num.toNat num rfl
  intro n
  induction n using Nat.strong_induction_on with
  | _ n ihn =>
  intro num hn memo hmemo
  rw [fib.eq_def]
  cases hL : dlookup memo num with
  | some v =>
    simp only [hL]
    exact ⟨(hmemo _ (dlookup_mem hL)), hmemo⟩
  | none =>
    simp only [hL]
    by_cases h1 : num ≤ 1
    · simp only [if_pos h1]
      exact ⟨(by simp [fibVal, h1]), hmemo⟩
    · simp only [if_neg h1]
      have ih1 := ihn (num - 1).toNat (by omega) (num - 1) rfl memo hmemo
      have ih2 := ihn (num - 2).toNat (by omega) (num - 2) rfl (fib memo (num - 1)).2 ih1.2
      have hsum : (fib memo (num - 1)).1 + (fib (fib memo (num - 1)).2 (num - 2)).1 =
          fibVal num := by
        rw [ih1.1, ih2.1, fibVal_rec num (by omega)]
      refine ⟨hsum, ?_⟩
      intro p hp
      rcases mem_dinsert hp with hp | rfl
      · exact ih2.2 p hp
      · exact hsum

/-- C4: for every non-negative integer `n`, `fibonacci_dynamic(n)` equals
the naive recursive reference `fibRef` (`fib(0)=0, fib(1)=1,
fib(k)=fib(k-1)+fib(k-2)`); in particular the values at `0`, `1` and `10`
are `0`, `1` and `55`, and the recurrence holds for every `n ≥ 2`. -/
theorem fibonacci_dynamic_correct :
    (∀ n : ℕ, fibonacci_dynamic (n : ℤ) = fibRef n) ∧
      fibonacci_dynamic 0 = 0 ∧ fibonacci_dynamic 1 = 1 ∧ fibonacci_dynamic 10 = 55 ∧
        ∀ n : ℤ, 2 ≤ n →
          fibonacci_dynamic n = fibonacci_dynamic (n - 1) + fibonacci_dynamic (n - 2) := by
  have hmain : ∀ n : ℤ, fibonacci_dynamic n = fibVal n := fun n =>
    (fib_correct n [] (by simp)).1
  refine ⟨?_, ?_, ?_, ?_, ?_⟩
  · intro n
    rw [hmain, fibVal_eq_fibRef _ (by omega)]
    congr 1
  · rw [hmain] <;> decide
  · rw [hmain] <;> decide
  · rw [hmain] <;> decide
  · intro n hn
    rw [hmain, hmain, hmain, fibVal_rec n hn]

/-- Witness for C4 at concrete inputs. -/
theorem fibonacci_dynamic_correct_witness :
    fibonacci_dynamic ((5 : ℕ) : ℤ) = fibRef 5 ∧ (2 : ℤ) ≤ 7 ∧
      fibonacci_dynamic 7 = fibonacci_dynamic 6 + fibonacci_dynamic 5 :=
  ⟨fibonacci_dynamic_correct.1 5, by decide,
    fibonacci_dynamic_correct.2.2.2.2 7 (by decide)⟩

/-- C10: for every integer `n ≤ 1`, negative values included,
`fibonacci_dynamic(n)` terminates normally and returns `n` itself: the base
case of the helper returns its argument whenever it is at most `1`, so
negative inputs yield their own value rather than an invalid-argument
error. -/
theorem fibonacci_dynamic_base (n : ℤ) (h : n ≤ 1) : fibonacci_dynamic n = n := by
  unfold fibonacci_dynamic
  rw [fib.eq_def]
  simp [dlookup, h]

/-- Witness for C10 at a negative input. -/
theorem fibonacci_dynamic_base_witness :
    (-5 : ℤ) ≤ 1 ∧ fibonacci_dynamic (-5) = -5 :=
  ⟨by decide, fibonacci_dynamic_base (-5) (by decide)⟩

/-! ### Dijkstra lemmas: selection, walks, spec distance -/

theorem selectMin_mem (dist : List (Node × ℕ∞)) (c : Node) (xs : List Node) :
    selectMin dist c xs ∈ c :: xs := by
  induction xs generalizing c with
  | nil => simp [selectMin]
  | cons x xs ih =>
    rw [selectMin]
    by_cases hx : dget dist x < dget dist c
    · simp only [hx, if_true]
      exact List.mem_cons_of_mem c (ih x)
    · simp only [hx, if_false]
      rcases List.mem_cons.mp (ih c) with h | h
      · rw [h]
        exact List.mem_cons_self c (x :: xs)
      · exact List.mem_cons_of_mem c (List.mem_cons_of_mem x h)

theorem selectMin_le (dist : List (Node × ℕ∞)) (c : Node) (xs : List Node) :
    ∀ v ∈ c :: xs, dget dist (selectMin dist c xs) ≤ dget dist v := by
  induction xs generalizing c with
  | nil =>
    intro v hv
    rw [List.mem_singleton.mp hv, selectMin]
  | cons x xs ih =>
    intro v hv
    rw [selectMin]
    by_cases hx : dget dist x < dget dist c
    · simp only [hx, if_true]
      rcases List.mem_cons.mp hv with rfl | hv
      · exact le_trans (ih x x (List.mem_cons_self x xs)) (le_of_lt hx)
      · exact ih x v hv
    · simp only [hx, if_false]
      rcases List.mem_cons.mp hv with rfl | hv
      · exact ih v v (List.mem_cons_self v xs)
      · rcases List.mem_cons.mp hv with rfl | hv
        · exact le_trans (ih c c (List.mem_cons_self c xs)) (not_lt.mp hx)
        · exact ih c v (List.mem_cons_of_mem c hv)

theorem pathCost_nil : pathCost [] = 0 := rfl

theorem pathCost_snoc (p : List (Node × ℕ)) (e : Node × ℕ) :
    pathCost (p ++ [e]) = pathCost p + e.2 := by
  simp [pathCost]

theorem IsWalk.snoc {g : Graph} {s m : Node} {p : List (Node × ℕ)} {e : Node × ℕ}
    (hw : IsWalk g s p m) (he : e ∈ adj g m) : IsWalk g s (p ++ [e]) e.1 := by
  induction p generalizing s with
  | nil =>
    have hs : s = m := hw
    exact ⟨hs ▸ he, rfl⟩
  | cons f p ih =>
    obtain ⟨hf, hw'⟩ := hw
    exact ⟨hf, ih hw'⟩

theorem isWalk_snoc_elim {g : Graph} {s t : Node} {p : List (Node × ℕ)} {e : Node × ℕ}
    (h : IsWalk g s (p ++ [e]) t) : t = e.1 ∧ ∃ m, IsWalk g s p m ∧ e ∈ adj g m := by
  induction p generalizing s with
  | nil =>
    obtain ⟨he, ht⟩ := h
    have ht' : e.1 = t := ht
    exact ⟨ht'.symm, s, rfl, he⟩
  | cons f p ih =>
    obtain ⟨hf, hw'⟩ := h
    obtain ⟨ht, m, hwm, hem⟩ := ih hw'
    exact ⟨ht, m, ⟨hf, hwm⟩, hem⟩

theorem mem_keys_of_adj {g : Graph} {v : Node} {e : Node × ℕ} (h : e ∈ adj g v) :
    v ∈ keys g := by
  unfold adj at h
  cases hL : dlookup g v with
  | none => simp [hL] at h
  | some l => exact List.mem_map_of_mem Prod.fst (dlookup_mem hL)

theorem minDist_le {g : Graph} {s t : Node} {p : List (Node × ℕ)} (h : IsWalk g s p t) :
    minDist g s t ≤ (pathCost p : ℕ∞) :=
  sInf_le ⟨p, h, rfl⟩

theorem minDist_self (g : Graph) (s : Node) : minDist g s s = 0 := by
  refine le_antisymm ?_ (zero_le _)
  have h := minDist_le (g := g) (s := s) (t := s) (p := []) rfl
  simpa [pathCost] using h

theorem minDist_eq_top {g : Graph} {s t : Node} (h : ∀ p : List (Node × ℕ), ¬ IsWalk g s p t) :
    minDist g s t = ⊤ := by
  refine sInf_eq_top.mpr ?_
  rintro c ⟨p, hw, rfl⟩
  exact absurd hw (h p)

/-! ### Dijkstra lemmas: the distance dict -/

theorem dget_init_top (l : List Node) (v : Node) :
    dget (l.map (fun node => (node, (⊤ : ℕ∞)))) v = ⊤ := by
  induction l with
  | nil => rfl
  | cons u l ih =>
    by_cases hu : u = v
    · simp [dget, dlookup, hu]
    · simpa [dget, dlookup, hu] using ih

theorem dget_init_append_top (l : List Node) (rest : List (Node × ℕ∞)) {v : Node}
    (hv : v ∈ l) : dget ((l.map (fun node => (node, (⊤ : ℕ∞)))) ++ rest) v = ⊤ := by
  induction l with
  | nil => simp at hv
  | cons u l ih =>
    by_cases hu : u = v
    · simp [dget, dlookup, hu]
    · have hv' : v ∈ l := by
        rcases List.mem_cons.mp hv with h | h
        · exact absurd h.symm hu
        · exact h
      simpa [dget, dlookup, hu] using ih hv'

theorem dget_init_append_start (l : List Node) (start : Node) (x : ℕ∞) (h : start ∉ l) :
    dget ((l.map (fun node => (node, (⊤ : ℕ∞)))) ++ [(start, x)]) start = x := by
  induction l with
  | nil => simp [dget, dlookup]
  | cons u l ih =>
    have hu : ¬ u = start := fun hq => h (hq ▸ List.mem_cons_self u l)
    have h' : start ∉ l := fun hq => h (List.mem_cons_of_mem u hq)
    simpa [dget, dlookup, hu] using ih h'

theorem dget_dinsert_self (d : List (Node × ℕ∞)) (k : Node) (x : ℕ∞) :
    dget (dinsert d k x) k = x := by
  simp [dget, dlookup_dinsert_self]

theorem dget_dinsert_ne (d : List (Node × ℕ∞)) (k k' : Node) (x : ℕ∞) (h : k' ≠ k) :
    dget (dinsert d k x) k' = dget d k' := by
  simp [dget, dlookup_dinsert_ne d k k' x h]

/-! ### Dijkstra lemmas: unfolding the loop -/

theorem dijkstra_loop_nil (g : Graph) (dist : List (Node × ℕ∞)) :
    dijkstra_loop g dist [] = dist := by
  rw [dijkstra_loop.eq_def]

theorem dijkstra_loop_cons_top (g : Graph) (dist : List (Node × ℕ∞)) (u : Node)
    (us : List Node) (h : dget dist (selectMin dist u us) = ⊤) :
    dijkstra_loop g dist (u :: us) = dist := by
  rw [dijkstra_loop.eq_def]
  exact if_pos h

theorem dijkstra_loop_cons_go (g : Graph) (dist : List (Node × ℕ∞)) (u : Node)
    (us : List Node) (h : ¬ dget dist (selectMin dist u us) = ⊤) :
    dijkstra_loop g dist (u :: us) =
      dijkstra_loop g (relaxNeighbors g (selectMin dist u us) (u :: us) dist)
        ((u :: us).erase (selectMin dist u us)) := by
  rw [dijkstra_loop.eq_def]
  exact if_neg h

/-! ### Dijkstra lemmas: one relaxation step -/

theorem relaxStep_current (current : Node) (unvisited : List Node) (d : List (Node × ℕ∞))
    (e : Node × ℕ) : dget (relaxStep current unvisited d e) current = dget d current := by
  unfold relaxStep
  by_cases hm : e.1 ∈ unvisited
  · simp only [hm, if_true]
    by_cases hlt : dget d current + (e.2 : ℕ∞) < dget d e.1
    · simp only [hlt, if_true]
      by_cases he : current = e.1
      · rw [← he] at hlt
        exact absurd hlt (not_lt.mpr le_self_add)
      · exact dget_dinsert_ne d e.1 current _ he
    · simp only [hlt, if_false]
  · simp only [hm, if_false]

theorem relaxStep_le (current : Node) (unvisited : List Node) (d : List (Node × ℕ∞))
    (e : Node × ℕ) (v : Node) : dget (relaxStep current unvisited d e) v ≤ dget d v := by
  unfold relaxStep
  by_cases hm : e.1 ∈ unvisited
  · simp only [hm, if_true]
    by_cases hlt : dget d current + (e.2 : ℕ∞) < dget d e.1
    · simp only [hlt, if_true]
      by_cases he : v = e.1
      · rw [he, dget_dinsert_self]
        exact le_of_lt (he ▸ hlt)
      · rw [dget_dinsert_ne d e.1 v _ he]
    · simp only [hlt, if_false, le_refl]
  · simp only [hm, if_false, le_refl]

theorem relaxStep_lower (current : Node) (unvisited : List Node) (d : List (Node × ℕ∞))
    (e : Node × ℕ) (v : Node) :
    min (dget d current) (dget d v) ≤ dget (relaxStep current unvisited d e) v := by
  unfold relaxStep
  by_cases hm : e.1 ∈ unvisited
  · simp only [hm, if_true]
    by_cases hlt : dget d current + (e.2 : ℕ∞) < dget d e.1
    · simp only [hlt, if_true]
      by_cases he : v = e.1
      · rw [he, dget_dinsert_self]
        exact le_trans (min_le_left _ _) le_self_add
      · rw [dget_dinsert_ne d e.1 v _ he]
        exact min_le_right _ _
    · simp only [hlt, if_false]
      exact min_le_right _ _
  · simp only [hm, if_false]
    exact min_le_right _ _

theorem relaxStep_not_unvisited (current : Node) (unvisited : List Node)
    (d : List (Node × ℕ∞)) (e : Node × ℕ) (v : Node) (hv : v ∉ unvisited) :
    dget (relaxStep current unvisited d e) v = dget d v := by
  unfold relaxStep
  by_cases hm : e.1 ∈ unvisited
  · simp only [hm, if_true]
    by_cases hlt : dget d current + (e.2 : ℕ∞) < dget d e.1
    · simp only [hlt, if_true]
      exact dget_dinsert_ne d e.1 v _ (fun hq => hv (hq ▸ hm))
    · simp only [hlt, if_false]
  · simp only [hm, if_false]

theorem relaxStep_sound (g : Graph) (start current : Node) (unvisited : List Node)
    (d : List (Node × ℕ∞)) (e : Node × ℕ) (he : e ∈ adj g current)
    (hsound : ∀ v, dget d v ≠ ⊤ →
      ∃ p, IsWalk g start p v ∧ dget d v = (pathCost p : ℕ∞)) :
    ∀ v, dget (relaxStep current unvisited d e) v ≠ ⊤ →
      ∃ p, IsWalk g start p v ∧
        dget (relaxStep current unvisited d e) v = (pathCost p : ℕ∞) := by
  intro v hv
  unfold relaxStep at hv ⊢
  by_cases hm : e.1 ∈ unvisited
  · simp only [hm, if_true] at hv ⊢
    by_cases hlt : dget d current + (e.2 : ℕ∞) < dget d e.1
    · simp only [hlt, if_true] at hv ⊢
      by_cases hev : v = e.1
      · subst hev
        have hcne : dget d current ≠ ⊤ := by
          intro hc
          rw [hc, top_add] at hlt
          exact not_top_lt hlt
        obtain ⟨p, hw, hc⟩ := hsound current hcne
        refine ⟨p ++ [e], IsWalk.snoc hw he, ?_⟩
        rw [dget_dinsert_self, hc, pathCost_snoc]
        push_cast
        rfl
      · rw [dget_dinsert_ne d e.1 v _ hev] at hv ⊢
        exact hsound v hv
    · simp only [hlt, if_false] at hv ⊢
      exact hsound v hv
  · simp only [hm, if_false] at hv ⊢
    exact hsound v hv

theorem relaxStep_bound (current : Node) (unvisited : List Node) (d : List (Node × ℕ∞))
    (e : Node × ℕ) (hm : e.1 ∈ unvisited) :
    dget (relaxStep current unvisited d e) e.1 ≤ dget d current + (e.2 : ℕ∞) := by
  unfold relaxStep
  simp only [hm, if_true]
  by_cases hlt : dget d current + (e.2 : ℕ∞) < dget d e.1
  · simp only [hlt, if_true, dget_dinsert_self]
    exact le_refl _
  · simp only [hlt, if_false]
    exact not_lt.mp hlt

/-! ### Dijkstra lemmas: the whole relaxation fold -/

theorem foldl_relax_current (current : Node) (unvisited : List Node) :
    ∀ (E : List (Node × ℕ)) (d : List (Node × ℕ∞)),
      dget (E.foldl (relaxStep current unvisited) d) current = dget d current := by
  intro E
  induction E with
  | nil => intro d; rfl
  | cons e E ih =>
    intro d
    rw [List.foldl_cons, ih, relaxStep_current]

theorem foldl_relax_le (current : Node) (unvisited : List Node) :
    ∀ (E : List (Node × ℕ)) (d : List (Node × ℕ∞)) (v : Node),
      dget (E.foldl (relaxStep current unvisited) d) v ≤ dget d v := by
  intro E
  induction E with
  | nil => intro d v; exact le_refl _
  | cons e E ih =>
    intro d v
    rw [List.foldl_cons]
    exact le_trans (ih _ v) (relaxStep_le current unvisited d e v)

theorem foldl_relax_lower (current : Node) (unvisited : List Node) :
    ∀ (E : List (Node × ℕ)) (d : List (Node × ℕ∞)) (v : Node),
      min (dget d current) (dget d v) ≤ dget (E.foldl (relaxStep current unvisited) d) v := by
  intro E
  induction E with
  | nil => intro d v; exact min_le_right _ _
  | cons e E ih =>
    intro d v
    rw [List.foldl_cons]
    refine le_trans ?_ (ih (relaxStep current unvisited d e) v)
    rw [relaxStep_current]
    exact le_min (min_le_left _ _) (relaxStep_lower current unvisited d e v)

theorem foldl_relax_not_unvisited (current : Node) (unvisited : List Node) :
    ∀ (E : List (Node × ℕ)) (d : List (Node × ℕ∞)) (v : Node), v ∉ unvisited →
      dget (E.foldl (relaxStep current unvisited) d) v = dget d v := by
  intro E
  induction E with
  | nil => intro d v _; rfl
  | cons e E ih =>
    intro d v hv
    rw [List.foldl_cons, ih _ v hv, relaxStep_not_unvisited current unvisited d e v hv]

theorem foldl_relax_sound (g : Graph) (start current : Node) (unvisited : List Node) :
    ∀ (E : List (Node × ℕ)), (∀ e ∈ E, e ∈ adj g current) →
      ∀ (d : List (Node × ℕ∞)),
        (∀ v, dget d v ≠ ⊤ → ∃ p, IsWalk g start p v ∧ dget d v = (pathCost p : ℕ∞)) →
        ∀ v, dget (E.foldl (relaxStep current unvisited) d) v ≠ ⊤ →
          ∃ p, IsWalk g start p v ∧
            dget (E.foldl (relaxStep current unvisited) d) v = (pathCost p : ℕ∞) := by
  intro E
  induction E with
  | nil => intro _ d hsound v hv; exact hsound v hv
  | cons e E ih =>
    intro hE d hsound v hv
    rw [List.foldl_cons] at hv ⊢
    exact ih (fun f hf => hE f (List.mem_cons_of_mem e hf)) _
      (relaxStep_sound g start current unvisited d e (hE e (List.mem_cons_self e E)) hsound)
      v hv

theorem foldl_relax_bound (current : Node) (unvisited : List Node) :
    ∀ (E : List (Node × ℕ)) (d : List (Node × ℕ∞)) (e : Node × ℕ), e ∈ E →
      e.1 ∈ unvisited →
      dget (E.foldl (relaxStep current unvisited) d) e.1 ≤ dget d current + (e.2 : ℕ∞) := by
  intro E
  induction E with
  | nil => intro d e he; simp at he
  | cons f E ih =>
    intro d e he hm
    rw [List.foldl_cons]
    rcases List.mem_cons.mp he with rfl | he
    · exact le_trans (foldl_relax_le current unvisited E _ e.1)
        (relaxStep_bound current unvisited d e hm)
    · rw [← relaxStep_current current unvisited d f]
      exact ih (relaxStep current unvisited d f) e he hm

/-! ### Dijkstra lemmas: the greedy argument -/

/-- Any walk from `start` that ends at an unvisited node costs at least the
distance of the minimal unvisited node: walking out of the settled region
must cross a relaxed edge. -/
theorem dijkstra_frontier_bound (g : Graph) (start : Node) (dist : List (Node × ℕ∞))
    (unvisited : List Node) (current : Node)
    (hstart0 : dget dist start = 0)
    (hsettled : ∀ v, v ∈ keys g → v ∉ unvisited → dget dist v = minDist g start v)
    (hrelaxed : ∀ u, u ∈ keys g → u ∉ unvisited → ∀ e ∈ adj g u, e.1 ∈ keys g →
      dget dist e.1 ≤ dget dist u + (e.2 : ℕ∞))
    (hunv : ∀ v ∈ unvisited, v ∈ keys g)
    (hmin : ∀ v ∈ unvisited, dget dist current ≤ dget dist v) :
    ∀ (p : List (Node × ℕ)) (v : Node), IsWalk g start p v → v ∈ unvisited →
      dget dist current ≤ (pathCost p : ℕ∞) := by
  intro p
  induction p using List.reverseRecOn with
  | nil =>
    intro v hw hv
    have hsv : start = v := hw
    have h1 := hmin v hv
    rw [← hsv, hstart0] at h1
    simpa [pathCost] using h1
  | append_singleton p e ih =>
    intro v hw hv
    obtain ⟨hte, m, hwp, hem⟩ := isWalk_snoc_elim hw
    subst hte
    by_cases hm : m ∈ unvisited
    · refine le_trans (ih m hwp hm) ?_
      rw [pathCost_snoc]
      push_cast
      exact le_self_add
    · have hmk : m ∈ keys g := mem_keys_of_adj hem
      calc dget dist current ≤ dget dist e.1 := hmin e.1 hv
        _ ≤ dget dist m + (e.2 : ℕ∞) := hrelaxed m hmk hm e hem (hunv e.1 hv)
        _ = minDist g start m + (e.2 : ℕ∞) := by rw [hsettled m hmk hm]
        _ ≤ (pathCost p : ℕ∞) + (e.2 : ℕ∞) := add_le_add_right (minDist_le hwp) _
        _ = (pathCost (p ++ [e]) : ℕ∞) := by rw [pathCost_snoc]; push_cast; rfl

/-- The greedy step: when the minimal unvisited node has finite tentative
distance, that distance is already the true shortest distance. -/
theorem dijkstra_current_eq_minDist (g : Graph) (start current : Node)
    (dist : List (Node × ℕ∞))
    (hsound : ∀ v, dget dist v ≠ ⊤ →
      ∃ p, IsWalk g start p v ∧ dget dist v = (pathCost p : ℕ∞))
    (hbound : ∀ p : List (Node × ℕ), IsWalk g start p current →
      dget dist current ≤ (pathCost p : ℕ∞))
    (hne : dget dist current ≠ ⊤) :
    dget dist current = minDist g start current := by
  obtain ⟨p0, hw0, hc0⟩ := hsound current hne
  refine le_antisymm ?_ ?_
  · refine le_sInf ?_
    rintro c ⟨p, hw, rfl⟩
    exact hbound p hw
  · rw [hc0]
    exact minDist_le hw0

/-- The loop invariant of `dijkstra_loop`, maintained through each
iteration: the final dict holds the true shortest distance of every key. -/
theorem dijkstra_loop_correct (g : Graph) (start : Node) :
    ∀ (dist : List (Node × ℕ∞)) (unvisited : List Node),
      unvisited.Nodup → (∀ v ∈ unvisited, v ∈ keys g) →
      dget dist start = 0 →
      (∀ v, dget dist v ≠ ⊤ → ∃ p, IsWalk g start p v ∧ dget dist v = (pathCost p : ℕ∞)) →
      (∀ v, v ∈ keys g → v ∉ unvisited → dget dist v = minDist g start v) →
      (∀ u, u ∈ keys g → u ∉ unvisited → ∀ e ∈ adj g u, e.1 ∈ keys g →
        dget dist e.1 ≤ dget dist u + (e.2 : ℕ∞)) →
      (∀ u, u ∈ keys g → u ∉ unvisited → ∀ v ∈ unvisited, dget dist u ≤ dget dist v) →
      ∀ v ∈ keys g, dget (dijkstra_loop g dist unvisited) v = minDist g start v := by
  intro dist unvisited
  induction dist, unvisited using dijkstra_loop.induct g with
  | case1 dist =>
    intro _ _ _ _ hsettled _ _ v hvk
    rw [dijkstra_loop_nil]
    exact hsettled v hvk (List.not_mem_nil v)
  | case2 dist u us htop =>
    intro hnd hunv hstart0 hsound hsettled hrelaxed hmono v hvk
    rw [dijkstra_loop_cons_top g dist u us htop]
    by_cases hv : v ∈ u :: us
    · have hvtop : dget dist v = ⊤ := by
        have h1 := selectMin_le dist u us v hv
        rw [htop] at h1
        exact top_le_iff.mp h1
      rw [hvtop]
      symm
      refine minDist_eq_top ?_
      intro p hw
      have hb := dijkstra_frontier_bound g start dist (u :: us) (selectMin dist u us)
        hstart0 hsettled hrelaxed hunv (selectMin_le dist u us) p v hw hv
      rw [htop] at hb
      exact absurd (top_le_iff.mp hb) (ENat.coe_ne_top (pathCost p))
    · exact hsettled v hvk hv
  | case3 dist u us htop ih =>
    intro hnd hunv hstart0 hsound hsettled hrelaxed hmono v hvk
    rw [dijkstra_loop_cons_go g dist u us htop]
    have hcm : selectMin dist u us ∈ u :: us := selectMin_mem dist u us
    have hminle : ∀ w ∈ u :: us, dget dist (selectMin dist u us) ≤ dget dist w :=
      selectMin_le dist u us
    have hcurK : selectMin dist u us ∈ keys g := hunv _ hcm
    have hbound := dijkstra_frontier_bound g start dist (u :: us) (selectMin dist u us)
      hstart0 hsettled hrelaxed hunv hminle
    have hcur_min : dget dist (selectMin dist u us) =
        minDist g start (selectMin dist u us) :=
      dijkstra_current_eq_minDist g start (selectMin dist u us) dist hsound
        (fun p hw => hbound p (selectMin dist u us) hw hcm) htop
    have R1 : dget (relaxNeighbors g (selectMin dist u us) (u :: us) dist)
        (selectMin dist u us) = dget dist (selectMin dist u us) :=
      foldl_relax_current (selectMin dist u us) (u :: us) (adj g (selectMin dist u us)) dist
    have R2 : ∀ w, dget (relaxNeighbors g (selectMin dist u us) (u :: us) dist) w ≤
        dget dist w :=
      fun w => foldl_relax_le (selectMin dist u us) (u :: us) (adj g (selectMin dist u us))
        dist w
    have R3 := foldl_relax_sound g start (selectMin dist u us) (u :: us)
      (adj g (selectMin dist u us)) (fun e he => he) dist hsound
    have R4 : ∀ e ∈ adj g (selectMin dist u us), e.1 ∈ u :: us →
        dget (relaxNeighbors g (selectMin dist u us) (u :: us) dist) e.1 ≤
          dget dist (selectMin dist u us) + (e.2 : ℕ∞) :=
      fun e he hm => foldl_relax_bound (selectMin dist u us) (u :: us)
        (adj g (selectMin dist u us)) dist e he hm
    have R5 : ∀ w, min (dget dist (selectMin dist u us)) (dget dist w) ≤
        dget (relaxNeighbors g (selectMin dist u us) (u :: us) dist) w :=
      fun w => foldl_relax_lower (selectMin dist u us) (u :: us)
        (adj g (selectMin dist u us)) dist w
    have R6 : ∀ w, w ∉ u :: us →
        dget (relaxNeighbors g (selectMin dist u us) (u :: us) dist) w = dget dist w :=
      fun w hw => foldl_relax_not_unvisited (selectMin dist u us) (u :: us)
        (adj g (selectMin dist u us)) dist w hw
    have heq_cur : ∀ w, w ∈ u :: us → w ∉ (u :: us).erase (selectMin dist u us) →
        w = selectMin dist u us := by
      intro w hw hwer
      by_contra hne2
      exact hwer (hnd.mem_erase_iff.mpr ⟨hne2, hw⟩)
    refine ih (hnd.erase _) (fun w hw => hunv w (List.mem_of_mem_erase hw)) ?_ R3 ?_ ?_ ?_
      v hvk
    · have h2 := R2 start
      rw [hstart0] at h2
      exact nonpos_iff_eq_zero.mp h2
    · intro w hwk hwer
      by_cases hw : w ∈ u :: us
      · rw [heq_cur w hw hwer, R1]
        exact hcur_min
      · rw [R6 w hw]
        exact hsettled w hwk hw
    · intro u' hu'k hu'er e he hek
      by_cases hu' : u' ∈ u :: us
      · rw [heq_cur u' hu' hu'er, R1]
        by_cases hem : e.1 ∈ u :: us
        · exact R4 e (by rw [← heq_cur u' hu' hu'er]; exact he) hem
        · rw [R6 e.1 hem]
          refine le_trans ?_ le_self_add
          exact hmono e.1 hek hem (selectMin dist u us) hcm
      · rw [R6 u' hu']
        exact le_trans (R2 e.1) (hrelaxed u' hu'k hu' e he hek)
    · intro u' hu'k hu'er w hwer
      have hw_unv : w ∈ u :: us := List.mem_of_mem_erase hwer
      have h5 : dget dist (selectMin dist u us) ≤
          dget (relaxNeighbors g (selectMin dist u us) (u :: us) dist) w := by
        have h6 := R5 w
        rw [min_eq_left (hminle w hw_unv)] at h6
        exact h6
      refine le_trans ?_ h5
      by_cases hu' : u' ∈ u :: us
      · rw [heq_cur u' hu' hu'er, R1]
      · rw [R6 u' hu']
        exact hmono u' hu'k hu' (selectMin dist u us) hcm

/-- The initial distance dict maps `start` to `0` and everything else
to `⊤`. -/
theorem dget_dijkstra_init (g : Graph) (start v : Node) :
    dget (dinsert ((keys g).map (fun node => (node, (⊤ : ℕ∞)))) start 0) v =
      if v = start then 0 else ⊤ := by
  by_cases hv : v = start
  · rw [hv, dget_dinsert_self, if_pos rfl]
  · rw [dget_dinsert_ne _ start v _ hv, dget_init_top, if_neg hv]

/-- C1: for every adjacency-map graph with non-negative edge weights and
every start node that is a key of the graph, `dijkstra_shortest_path`
returns a mapping in which `start` maps to `0` and every node maps to the
minimum total edge weight of any path from `start` to it, unreachable nodes
mapping to infinity (`⊤`); in particular, on the graph
`{A:{B:1,C:4}, B:{C:2,D:5}, C:{D:1}, D:{}}` (nodes `A,B,C,D` numbered
`0,1,2,3`) with start `A` it returns `{A:0, B:1, C:3, D:4}`. -/
theorem dijkstra_shortest_path_correct :
    (∀ (g : Graph) (start : Node), (keys g).Nodup → start ∈ keys g →
        dget (dijkstra_shortest_path g start) start = 0 ∧
          ∀ v ∈ keys g, dget (dijkstra_shortest_path g start) v = minDist g start v) ∧
      dijkstra_shortest_path
          [(0, [(1, 1), (2, 4)]), (1, [(2, 2), (3, 5)]), (2, [(3, 1)]), (3, [])] 0 =
        [(0, 0), (1, 1), (2, 3), (3, 4)] := by
  constructor
  · intro g start hnd hstart
    have hmain : ∀ v ∈ keys g, dget (dijkstra_shortest_path g start) v =
        minDist g start v := by
      refine dijkstra_loop_correct g start _ (keys g) hnd (fun v hv => hv) ?_ ?_ ?_ ?_ ?_
      · rw [dget_dijkstra_init, if_pos rfl]
      · intro v hv
        rw [dget_dijkstra_init] at hv ⊢
        by_cases hvs : v = start
        · refine ⟨[], ?_, ?_⟩
          · exact hvs.symm
          · rw [if_pos hvs]
            simp [pathCost]
        · rw [if_neg hvs] at hv
          exact absurd rfl hv
      · intro v hvk hvn
        exact absurd hvk hvn
      · intro u huk hun
        exact absurd huk hun
      · intro u huk hun
        exact absurd huk hun
    refine ⟨?_, hmain⟩
    rw [hmain start hstart, minDist_self]
  · norm_num [dijkstra_shortest_path, dijkstra_loop, relaxNeighbors, relaxStep, selectMin,
      keys, adj, dget, dlookup, dinsert, lt_top_iff_ne_top]

/-- Witness for C1 at a concrete two-node graph. -/
theorem dijkstra_shortest_path_correct_witness :
    (keys [(0, [(1, 2)]), (1, [])]).Nodup ∧ 0 ∈ keys [(0, [(1, 2)]), (1, [])] ∧
      (dget (dijkstra_shortest_path [(0, [(1, 2)]), (1, [])] 0) 0 = 0 ∧
        ∀ v ∈ keys [(0, [(1, 2)]), (1, [])],
          dget (dijkstra_shortest_path [(0, [(1, 2)]), (1, [])] 0) v =
            minDist [(0, [(1, 2)]), (1, [])] 0 v) :=
  ⟨by decide, by decide,
    dijkstra_shortest_path_correct.1 [(0, [(1, 2)]), (1, [])] 0 (by decide) (by decide)⟩

/-- When `start` is not a key, `distances[start] = 0` appends a new binding,
every unvisited node has distance `⊤`, and the loop breaks on its first
iteration (or never runs), returning the initial dict. -/
theorem dijkstra_missing_start (g : Graph) (start : Node) (h : start ∉ keys g) :
    dijkstra_shortest_path g start =
      (keys g).map (fun node => (node, (⊤ : ℕ∞))) ++ [(start, 0)] := by
  have hkm : start ∉ ((keys g).map (fun node => (node, (⊤ : ℕ∞)))).map Prod.fst := by
    simpa [List.map_map, Function.comp] using h
  unfold dijkstra_shortest_path
  rw [dinsert_of_not_mem 0 hkm]
  cases hK : keys g with
  | nil =>
    exact dijkstra_loop_nil g _
  | cons u us =>
    refine dijkstra_loop_cons_top g _ u us ?_
    exact dget_init_append_top (u :: us) [(start, 0)] (selectMin_mem _ u us)

/-- C9: for every graph and every start node that is not a key of the
graph, `dijkstra_shortest_path` returns normally: the dict assignment adds
`start` as a new key mapped to `0`, every node of the graph keeps distance
`⊤`, and the result is exactly the initial dict (the first selected
unvisited node already has infinite distance, so the loop exits at once). -/
theorem dijkstra_missing_start_behavior (g : Graph) (start : Node) (h : start ∉ keys g) :
    dijkstra_shortest_path g start =
        (keys g).map (fun node => (node, (⊤ : ℕ∞))) ++ [(start, 0)] ∧
      dget (dijkstra_shortest_path g start) start = 0 ∧
        ∀ v ∈ keys g, dget (dijkstra_shortest_path g start) v = ⊤ := by
  refine ⟨dijkstra_missing_start g start h, ?_, ?_⟩
  · rw [dijkstra_missing_start g start h]
    exact dget_init_append_start (keys g) start 0 h
  · intro v hv
    rw [dijkstra_missing_start g start h]
    exact dget_init_append_top (keys g) [(start, 0)] hv

/-- Witness for C9 at a concrete graph with an absent start node. -/
theorem dijkstra_missing_start_behavior_witness :
    0 ∉ keys [(1, [(1, 3)])] ∧
      (dijkstra_shortest_path [(1, [(1, 3)])] 0 =
          (keys [(1, [(1, 3)])]).map (fun node => (node, (⊤ : ℕ∞))) ++ [(0, 0)] ∧
        dget (dijkstra_shortest_path [(1, [(1, 3)])] 0) 0 = 0 ∧
          ∀ v ∈ keys [(1, [(1, 3)])], dget (dijkstra_shortest_path [(1, [(1, 3)])] 0) v = ⊤) :=
  ⟨by decide, dijkstra_missing_start_behavior [(1, [(1, 3)])] 0 (by decide)⟩

/-- C6 counterexample: with graph `{1: {}}` and absent start node `0`,
`dijkstra_shortest_path` does not fail: it returns the plain dict
`{1: inf, 0: 0}`, so the claim that the call is an invalid access that
fails rather than returning normally is false. -/
theorem dijkstra_missing_start_counterexample :
    dijkstra_shortest_path [(1, [])] 0 = [(1, ⊤), (0, 0)] := by
  norm_num [dijkstra_shortest_path, dijkstra_loop, relaxNeighbors, relaxStep, selectMin,
    keys, adj, dget, dlookup, dinsert, lt_top_iff_ne_top]

/-- C6 (amended): for every graph and every start node that is not a key of
the graph, `dijkstra_shortest_path` returns normally — `distances[start] = 0`
is a dict assignment that adds the missing key rather than an invalid
access — and the returned mapping sends `start` to `0`. -/
theorem dijkstra_missing_start_returns (g : Graph) (start : Node) (h : start ∉ keys g) :
    dget (dijkstra_shortest_path g start) start = 0 := by
  rw [dijkstra_missing_start g start h]
  exact dget_init_append_start (keys g) start 0 h

/-- Witness for the amended C6 at a concrete graph. -/
theorem dijkstra_missing_start_returns_witness :
    5 ∉ keys [(1, [(2, 3)]), (2, [])] ∧
      dget (dijkstra_shortest_path [(1, [(2, 3)]), (2, [])] 5) 5 = 0 :=
  ⟨by decide, dijkstra_missing_start_returns [(1, [(2, 3)]), (2, [])] 5 (by decide)⟩
